import Mathlib

/-!
# Verification of the xtask template-variant expansion engine

Shallow embedding of `src/xtask/src/generate.rs` (the template discovery,
filter classification, variant generation, and post-generation execution
logic) together with proofs of the spec's claims about it.

Strings stand for Rust `&str`/`String`; `IndexMap` is modelled as an
insertion-ordered association list; `HashMap<&str, &str>` built by
`collect` is modelled by its observable lookup function (last insertion
wins); `HashSet` is modelled as a list used only through `contains` and
`isEmpty`. Rust panics (`assert!`) and `?`-propagated errors are made
explicit in the result types.
-/

/-- `Define` from generate.rs: a single resolved
`(placeholder_name, choice_value)` assignment. -/
structure Define where
  key : String
  value : String
deriving DecidableEq, Repr

/-- `Template` from generate.rs: `name`, `template_dir`, and the
insertion-ordered `placeholders` map from placeholder name to its declared
choice values. -/
structure Template where
  name : String
  template_dir : String
  placeholders : List (String × List String)
deriving DecidableEq, Repr

/-- `Template::value_to_placeholder`: builds a `HashMap` from each choice
value to its placeholder key by flat-mapping over `placeholders`; a
`HashMap` collected from an iterator keeps the last insertion for a
duplicated key, so the lookup returns the key of the last
`(value, key)` pair whose value matches. -/
def Template.value_to_placeholder (t : Template) (v : String) : Option String :=
  (t.placeholders.flatMap (fun pc => pc.2.map (fun val => (val, pc.1)))).foldl
    (fun acc vk => if vk.1 = v then some vk.2 else acc) none

/-- `IndexMap::get` on `placeholders` (used as `self.placeholders.get(p).unwrap()`):
the choices of placeholder `p`. An `IndexMap` has unique keys, so the first
match is the entry. -/
def Template.choicesOf (t : Template) (p : String) : List String :=
  ((t.placeholders.find? (fun pc => pc.1 == p)).map Prod.snd).getD []

/-- The initial `variant_map`: every placeholder key paired with an empty
vector of selected values. -/
def initMap (t : Template) : List (String × List String) :=
  t.placeholders.map (fun pc => (pc.1, ([] : List String)))

/-- `variant_map.get_mut(key).unwrap().push(v)`: append `v` to the entry of
`key`. -/
def pushToken (m : List (String × List String)) (key v : String) :
    List (String × List String) :=
  m.map (fun e => if e.1 = key then (e.1, e.2 ++ [v]) else e)

/-- The token loop of `Template::variants`: for each filter token `v`, look
it up in `value_to_placeholder`; `ok_or(v)?` returns `Err(v)` at the first
token that resolves to no placeholder, otherwise push `v` onto its
placeholder's entry. (When the filter iterator is empty the loop body never
runs, which the source short-circuits with a `peek`.) -/
def Template.fillVariantMap (t : Template) :
    List String → List (String × List String) →
      Except String (List (String × List String))
  | [], m => .ok m
  | v :: rest, m =>
    match t.value_to_placeholder v with
    | none => .error v
    | some key => t.fillVariantMap rest (pushToken m key v)

/-- One step of the cross-product loop:
`values.flat_map(|add| variants.map(|v| v ++ [Define { key: p, value: add }]))`. -/
def crossStep (variants : List (List Define)) (p : String) (values : List String) :
    List (List Define) :=
  values.flatMap (fun add => variants.map (fun v => v ++ [Define.mk p add]))

/-- The per-entry fallback of the cross-product loop: if no filter token was
pushed for this placeholder, use its full declared choice list. -/
def Template.resolveValues (t : Template) (e : String × List String) : List String :=
  if e.2.isEmpty then t.choicesOf e.1 else e.2

/-- The cross-product loop of `Template::variants` over the entries of
`variant_map`, starting from `vec![vec![]]`. The `assert!(!values.is_empty())`
panic is modelled by returning `none`. -/
def Template.variantsCore (t : Template) :
    List (String × List String) → List (List Define) → Option (List (List Define))
  | [], variants => some variants
  | e :: rest, variants =>
    let values := t.resolveValues e
    if values.isEmpty then none
    else t.variantsCore rest (crossStep variants e.1 values)

/-- Result of `Template::variants`: `Err(token)` for an unresolved filter
token, a panic from the `assert!`, or `Ok` with the variant list. -/
inductive VResult where
  | unknown (token : String)
  | panic
  | ok (variants : List (List Define))
deriving DecidableEq, Repr

/-- `Template::variants`: fill the `variant_map` from the filter tokens,
then fold the cross product over its entries in placeholder declaration
order. -/
def Template.variants (t : Template) (filter : List String) : VResult :=
  match t.fillVariantMap filter (initMap t) with
  | .error v => .unknown v
  | .ok m =>
    match t.variantsCore m [[]] with
    | none => .panic
    | some vs => .ok vs

/-- The candidate-choice list the cross-product loop actually uses for
placeholder `p` under a given filter: the filled `variant_map` entry of `p`
if it received tokens, otherwise the full declared choice list. `none` if
the fill step failed on an unresolved token or `p` is not a placeholder. -/
def Template.candidates (t : Template) (filter : List String) (p : String) :
    Option (List String) :=
  match t.fillVariantMap filter (initMap t) with
  | .error _ => none
  | .ok m => (m.find? (fun e => e.1 == p)).map (fun e => t.resolveValues e)

/-- Modelled from the spec: the spec's §4.4 step 1 wording of the candidate
list, with matching tokens ordered as the values appear in the placeholder's
declared choices (not in the filter's order). Used only to compare against
the source's `Template.candidates`. -/
def specCandidates (t : Template) (filter : List String) (p : String) :
    List String :=
  let cs := t.choicesOf p
  let matching := cs.filter (fun c => filter.contains c)
  if matching.isEmpty then cs else matching

/-- `Filters` from generate.rs. The `HashSet` of template filters is
modelled as a list observed only through membership and emptiness. -/
structure Filters where
  template_filters : List String
  placeholder_filters : List String
deriving DecidableEq, Repr

/-- `TemplateDiscovery`: the ordered list of discovered templates. -/
structure TemplateDiscovery where
  templates : List Template
deriving DecidableEq, Repr

/-- `TemplateDiscovery::split_filter`: each token that equals some
discovered template's name goes to `template_filters`, every other token to
`placeholder_filters`. -/
def TemplateDiscovery.split_filter (d : TemplateDiscovery) (filters : List String) :
    Filters :=
  filters.foldl
    (fun out f =>
      if d.templates.any (fun t => t.name == f) then
        { out with template_filters := out.template_filters ++ [f] }
      else
        { out with placeholder_filters := out.placeholder_filters ++ [f] })
    ⟨[], []⟩

/-- The template-scope filter of `filter_variants`: keep a template when
`template_filters` is empty or contains its name. -/
def TemplateDiscovery.in_scope (d : TemplateDiscovery) (f : Filters) : List Template :=
  d.templates.filter
    (fun t => f.template_filters.isEmpty || f.template_filters.contains t.name)

/-- Result of `TemplateDiscovery::filter_variants`: a propagated panic, the
`Unknown filter` bail, the `No templates exist?` bail, or the collected
`(template, variant)` pairs. -/
inductive FVResult where
  | panic
  | unknownFilter (token : String)
  | noTemplates
  | ok (pairs : List (Template × List Define))
deriving DecidableEq, Repr

/-- The `flat_map`/`collect` loop of `filter_variants` with its two mutable
flags: `hasUnknown` starts `true` and is cleared by any `Ok` from
`Template::variants`; `unk` keeps the last `Err` token. After the loop,
`hasUnknown` with a recorded token bails `Unknown filter`, `hasUnknown`
with no token bails `No templates exist?`. -/
def fvLoop (pf : List String) :
    List Template → Bool → Option String → List (Template × List Define) → FVResult
  | [], hasUnknown, unk, acc =>
    if hasUnknown then
      match unk with
      | some tok => .unknownFilter tok
      | none => .noTemplates
    else .ok acc
  | t :: ts, hasUnknown, unk, acc =>
    match t.variants pf with
    | .panic => .panic
    | .unknown e => fvLoop pf ts hasUnknown (some e) acc
    | .ok vs => fvLoop pf ts false unk (acc ++ vs.map (fun v => (t, v)))

/-- `TemplateDiscovery::filter_variants`: split the raw tokens, restrict to
in-scope templates, and run the collection loop. -/
def TemplateDiscovery.filter_variants (d : TemplateDiscovery) (filters : List String) :
    FVResult :=
  let f := d.split_filter filters
  fvLoop f.placeholder_filters (d.in_scope f) true none []

/-- The `template` section of the root descriptor
(`cargo_generate_config.rs`): an optional list of sub-template names. -/
structure RootTemplate where
  sub_templates : Option (List String)
deriving DecidableEq, Repr

/-- The root descriptor: an optional `template` section. -/
structure RootConfig where
  template : Option RootTemplate
deriving DecidableEq, Repr

/-- `TemplateDiscovery::discover_at` on an already parsed root descriptor:
require the `template` section, default a missing `sub_templates` to the
empty list, and parse each named sub-template in order (`parse` stands for
`Template::parse` at `base_dir/name`, whose file reading is outside the
embedding). -/
def discover_at (root : RootConfig) (parse : String → Except String Template) :
    Except String TemplateDiscovery :=
  match root.template with
  | none => .error "Expected template in root config"
  | some rt =>
    ((rt.sub_templates.getD []).mapM parse).map (fun ts => TemplateDiscovery.mk ts)

/-- What a single `--execute` invocation in one output directory does:
either the spawn (or wait) fails with an io error, or the process runs to
completion with a success flag. -/
inductive SpawnOutcome where
  | spawnFail
  | exited (success : Bool)
deriving DecidableEq, Repr

/-- The directory loop of `Generate::execute`: `cmd.spawn()?.wait()?`
propagates a spawn/wait failure immediately, while a non-zero exit only
clears the `success` flag; after the loop, a cleared flag bails. Returns
the number of invocations attempted together with the result. -/
def executeLoop : List SpawnOutcome → Nat → Bool → Nat × Except String Unit
  | [], n, success =>
    (n, if success then .ok () else .error "Some processes spawned by --execute failed")
  | o :: os, n, success =>
    match o with
    | .spawnFail => (n + 1, .error "Process spawning failed")
    | .exited s => executeLoop os (n + 1) (success && s)

/-- `Generate::execute`: a no-op without a command, otherwise the directory
loop over the per-directory outcomes. -/
def Generate.execute (cmd : Option String) (outcomes : List SpawnOutcome) :
    Nat × Except String Unit :=
  match cmd with
  | none => (0, .ok ())
  | some _ => executeLoop outcomes 0 true

/-- The `test_template()` of the source's test module. -/
def testTemplate : Template :=
  { name := "my-template"
    template_dir := "./my_template/"
    placeholders :=
      [("integration", ["cargo-gpu", "spirv-builder"]),
       ("api", ["ash", "wgpu", "cpu"])] }

example :
    testTemplate.variants [] =
      .ok
        [[⟨"integration", "cargo-gpu"⟩, ⟨"api", "ash"⟩],
         [⟨"integration", "spirv-builder"⟩, ⟨"api", "ash"⟩],
         [⟨"integration", "cargo-gpu"⟩, ⟨"api", "wgpu"⟩],
         [⟨"integration", "spirv-builder"⟩, ⟨"api", "wgpu"⟩],
         [⟨"integration", "cargo-gpu"⟩, ⟨"api", "cpu"⟩],
         [⟨"integration", "spirv-builder"⟩, ⟨"api", "cpu"⟩]] := by
  decide

example :
    testTemplate.variants ["ash"] =
      .ok
        [[⟨"integration", "cargo-gpu"⟩, ⟨"api", "ash"⟩],
         [⟨"integration", "spirv-builder"⟩, ⟨"api", "ash"⟩]] := by
  decide

example : testTemplate.variants ["unknown"] = .unknown "unknown" := by decide

example :
    testTemplate.candidates ["wgpu", "ash"] "api" = some ["wgpu", "ash"] := by decide

/-! ## Helper lemmas about the cross-product step -/

theorem append_singleton_inj {α : Type _} {l₁ l₂ : List α} {a b : α} :
    l₁ ++ [a] = l₂ ++ [b] ↔ l₁ = l₂ ∧ a = b := by
  constructor
  · intro h
    have h2 := congrArg List.reverse h
    simp at h2
    exact ⟨h2.2, h2.1⟩
  · rintro ⟨rfl, rfl⟩; rfl

theorem crossStep_length (vs : List (List Define)) (p : String) (values : List String) :
    (crossStep vs p values).length = values.length * vs.length := by
  induction values with
  | nil => simp [crossStep]
  | cons b bs ih =>
    simp only [crossStep, List.flatMap_cons] at ih ⊢
    simp [ih, Nat.succ_mul, Nat.add_comm]

theorem crossStep_mem {vs : List (List Define)} {p : String} {values : List String}
    {x : List Define} :
    x ∈ crossStep vs p values ↔ ∃ a ∈ values, ∃ v ∈ vs, x = v ++ [Define.mk p a] := by
  simp only [crossStep, List.mem_flatMap, List.mem_map]
  constructor
  · rintro ⟨a, ha, v, hv, rfl⟩; exact ⟨a, ha, v, hv, rfl⟩
  · rintro ⟨a, ha, v, hv, rfl⟩; exact ⟨a, ha, v, hv, rfl⟩

theorem count_map_append_singleton (vs : List (List Define)) (w : List Define)
    (x y : Define) :
    List.count (w ++ [y]) (vs.map (fun v => v ++ [x])) =
      if x = y then List.count w vs else 0 := by
  induction vs with
  | nil => simp
  | cons v vs ih =>
    simp only [List.map_cons, List.count_cons, ih]
    by_cases hxy : x = y
    · subst hxy
      by_cases hvw : v = w
      · subst hvw
        simp [List.count_cons]
      · have h1 : ¬(v ++ [x] = w ++ [x]) := fun hc => hvw (append_singleton_inj.mp hc).1
        simp [List.count_cons, hvw, h1]
    · have h1 : ¬(v ++ [x] = w ++ [y]) := fun hc => hxy (append_singleton_inj.mp hc).2
      simp [hxy, h1]

theorem crossStep_count (vs : List (List Define)) (p : String) (values : List String)
    (w : List Define) (a : String) :
    List.count (w ++ [Define.mk p a]) (crossStep vs p values) =
      List.count a values * List.count w vs := by
  induction values with
  | nil => simp [crossStep]
  | cons b bs ih =>
    simp only [crossStep, List.flatMap_cons, List.count_append] at ih ⊢
    rw [ih, count_map_append_singleton, List.count_cons]
    by_cases hba : b = a
    · subst hba
      simp only [beq_self_eq_true, if_pos rfl, if_true]
      ring
    · have hd : ¬(Define.mk p b = Define.mk p a) := by
        intro hc
        exact hba (congrArg Define.value hc)
      have hb2 : ¬((b == a) = true) := by simp [hba]
      simp only [if_neg hd, if_neg hb2]
      ring

/-! ## Helper lemmas about the cross-product fold (`variantsCore`) -/

/-- The `Define` sequence selected by pairing the keys of a variant map with
one chosen value per entry. -/
def zipDefines (m : List (String × List String)) (sel : List String) : List Define :=
  List.zipWith (fun e c => Define.mk e.1 c) m sel

theorem zipDefines_eq_of_keys {m₁ m₂ : List (String × List String)}
    (h : m₁.map Prod.fst = m₂.map Prod.fst) (sel : List String) :
    zipDefines m₁ sel = zipDefines m₂ sel := by
  induction m₁ generalizing m₂ sel with
  | nil =>
    have : m₂ = [] := by
      cases m₂ with
      | nil => rfl
      | cons e es => simp at h
    simp [this]
  | cons e es ih =>
    cases m₂ with
    | nil => simp at h
    | cons e₂ es₂ =>
      simp only [List.map_cons, List.cons.injEq] at h
      cases sel with
      | nil => rfl
      | cons c cs =>
        show Define.mk e.1 c :: zipDefines es cs = Define.mk e₂.1 c :: zipDefines es₂ cs
        rw [h.1, ih h.2 cs]

theorem zipDefines_map_key {m : List (String × List String)} {sel : List String}
    (h : sel.length = m.length) :
    (zipDefines m sel).map Define.key = m.map Prod.fst := by
  induction m generalizing sel with
  | nil => simp [zipDefines]
  | cons e es ih =>
    cases sel with
    | nil => simp at h
    | cons c cs =>
      have h2 : cs.length = es.length := by
        simp only [List.length_cons] at h
        omega
      show Define.key (Define.mk e.1 c) :: (zipDefines es cs).map Define.key =
        e.1 :: es.map Prod.fst
      rw [ih h2]

theorem variantsCore_length {t : Template} {m : List (String × List String)}
    {acc vs : List (List Define)} (h : t.variantsCore m acc = some vs) :
    vs.length = (m.map (fun e => (t.resolveValues e).length)).prod * acc.length := by
  induction m generalizing acc vs with
  | nil =>
    simp only [Template.variantsCore, Option.some.injEq] at h
    simp [← h]
  | cons e rest ih =>
    simp only [Template.variantsCore] at h
    split at h
    · exact absurd h (by simp)
    · rw [ih h, crossStep_length]
      simp only [List.map_cons, List.prod_cons]
      ring

theorem variantsCore_count {t : Template} {m : List (String × List String)}
    {acc vs : List (List Define)} (h : t.variantsCore m acc = some vs)
    {sel : List String} (hlen : sel.length = m.length) (w : List Define) :
    List.count (w ++ zipDefines m sel) vs =
      (List.zipWith (fun e c => List.count c (t.resolveValues e)) m sel).prod *
        List.count w acc := by
  induction m generalizing acc vs sel w with
  | nil =>
    cases sel with
    | nil =>
      simp only [Template.variantsCore, Option.some.injEq] at h
      simp [← h, zipDefines]
    | cons c cs => simp at hlen
  | cons e rest ih =>
    cases sel with
    | nil => simp at hlen
    | cons c cs =>
      have hlen2 : cs.length = rest.length := by
        simp only [List.length_cons] at hlen
        omega
      simp only [Template.variantsCore] at h
      split at h
      · exact absurd h (by simp)
      · next hne =>
        have step := ih h hlen2 ((w ++ [Define.mk e.1 c]))
        rw [crossStep_count] at step
        have : w ++ zipDefines (e :: rest) (c :: cs) =
            (w ++ [Define.mk e.1 c]) ++ zipDefines rest cs := by
          simp [zipDefines]
        rw [this, step]
        simp only [List.zipWith_cons_cons, List.prod_cons]
        ring

theorem variantsCore_shape {t : Template} {m : List (String × List String)}
    {acc vs : List (List Define)} (h : t.variantsCore m acc = some vs) :
    ∀ x ∈ vs, ∃ w ∈ acc, ∃ sel,
      List.Forall₂ (fun c e => c ∈ t.resolveValues e) sel m ∧
        x = w ++ zipDefines m sel := by
  induction m generalizing acc vs with
  | nil =>
    simp only [Template.variantsCore, Option.some.injEq] at h
    intro x hx
    exact ⟨x, h ▸ hx, [], List.Forall₂.nil, by simp [zipDefines]⟩
  | cons e rest ih =>
    simp only [Template.variantsCore] at h
    split at h
    · exact absurd h (by simp)
    · intro x hx
      obtain ⟨w', hw', sel', hf, rfl⟩ := ih h x hx
      obtain ⟨a, ha, w, hw, rfl⟩ := crossStep_mem.mp hw'
      refine ⟨w, hw, a :: sel', List.Forall₂.cons ha hf, ?_⟩
      simp [zipDefines]

theorem variantsCore_isSome {t : Template} {m : List (String × List String)}
    (hne : ∀ e ∈ m, t.resolveValues e ≠ []) (acc : List (List Define)) :
    ∃ vs, t.variantsCore m acc = some vs := by
  induction m generalizing acc with
  | nil => exact ⟨acc, rfl⟩
  | cons e rest ih =>
    simp only [Template.variantsCore]
    have h1 : ¬(t.resolveValues e).isEmpty := by
      simp only [List.isEmpty_iff]
      exact hne e (by simp)
    rw [if_neg h1]
    exact ih (fun e' he' => hne e' (by simp [he'])) _

/-! ## Helper lemmas about the token loop (`fillVariantMap`) -/

theorem fillVariantMap_ok_eq {t : Template} {fs : List String}
    {m m' : List (String × List String)} (h : t.fillVariantMap fs m = .ok m') :
    m' = m.map (fun e =>
      (e.1, e.2 ++ fs.filter (fun v => t.value_to_placeholder v == some e.1))) := by
  induction fs generalizing m with
  | nil =>
    simp only [Template.fillVariantMap, Except.ok.injEq] at h
    subst h
    simp [List.map_id'']
  | cons v rest ih =>
    simp only [Template.fillVariantMap] at h
    split at h
    · exact absurd h (by simp)
    · next key hkey =>
      rw [ih h, pushToken]
      simp only [List.map_map]
      refine List.map_congr_left (fun e _ => ?_)
      simp only [Function.comp]
      by_cases he : e.1 = key
      · have hv : (t.value_to_placeholder v == some e.1) = true := by
          rw [hkey, he]
          simp
        simp [he, List.filter_cons, hv, hkey]
      · have hv : (t.value_to_placeholder v == some e.1) = false := by
          rw [hkey]
          simp
          intro hc
          exact he hc.symm
        simp only [if_neg he, List.filter_cons, hv]
        simp

theorem fillVariantMap_error {t : Template} {fs : List String}
    {m : List (String × List String)} {e : String}
    (h : t.fillVariantMap fs m = .error e) :
    e ∈ fs ∧ t.value_to_placeholder e = none := by
  induction fs generalizing m with
  | nil => simp [Template.fillVariantMap] at h
  | cons v rest ih =>
    simp only [Template.fillVariantMap] at h
    split at h
    · next hkey =>
      simp only [Except.error.injEq] at h
      subst h
      exact ⟨by simp, hkey⟩
    · obtain ⟨h1, h2⟩ := ih h
      exact ⟨by simp [h1], h2⟩

theorem fillVariantMap_ok_of_resolves {t : Template} {fs : List String}
    (hres : ∀ v ∈ fs, (t.value_to_placeholder v).isSome)
    (m : List (String × List String)) :
    ∃ m', t.fillVariantMap fs m = .ok m' := by
  induction fs generalizing m with
  | nil => exact ⟨m, rfl⟩
  | cons v rest ih =>
    simp only [Template.fillVariantMap]
    have h1 := hres v (by simp)
    cases hvp : t.value_to_placeholder v with
    | none => rw [hvp] at h1; simp at h1
    | some key =>
      exact ih (fun v' hv' => hres v' (by simp [hv'])) (pushToken m key v)

/-! ## Helper lemmas about `value_to_placeholder` -/

theorem lastWins_some {v p : String} {l : List (String × String)}
    {a : Option String}
    (h : l.foldl (fun acc vk => if vk.1 = v then some vk.2 else acc) a = some p) :
    (v, p) ∈ l ∨ a = some p := by
  induction l generalizing a with
  | nil => exact Or.inr h
  | cons x xs ih =>
    simp only [List.foldl_cons] at h
    rcases ih h with h1 | h1
    · exact Or.inl (by simp [h1])
    · by_cases hx : x.1 = v
      · rw [if_pos hx] at h1
        left
        have : x = (v, p) := by
          cases x
          simp only [Option.some.injEq] at h1
          simp_all
        simp [this]
      · rw [if_neg hx] at h1
        exact Or.inr h1

theorem lastWins_none {v : String} {l : List (String × String)} {a : Option String}
    (h : l.foldl (fun acc vk => if vk.1 = v then some vk.2 else acc) a = none) :
    a = none ∧ ∀ x ∈ l, x.1 ≠ v := by
  induction l generalizing a with
  | nil => exact ⟨h, by simp⟩
  | cons x xs ih =>
    simp only [List.foldl_cons] at h
    obtain ⟨h1, h2⟩ := ih h
    by_cases hx : x.1 = v
    · rw [if_pos hx] at h1
      simp at h1
    · rw [if_neg hx] at h1
      refine ⟨h1, ?_⟩
      intro y hy
      rcases List.mem_cons.mp hy with rfl | hy'
      · exact hx
      · exact h2 y hy'

theorem lastWins_isSome {v : String} {l : List (String × String)}
    (a : Option String) (hmem : ∃ x ∈ l, x.1 = v) :
    ∃ q, l.foldl (fun acc vk => if vk.1 = v then some vk.2 else acc) a = some q ∧
      (v, q) ∈ l := by
  induction l generalizing a with
  | nil => simp at hmem
  | cons x xs ih =>
    simp only [List.foldl_cons]
    by_cases hxs : ∃ y ∈ xs, y.1 = v
    · obtain ⟨q, hq, hqm⟩ := ih _ hxs
      exact ⟨q, hq, by simp [hqm]⟩
    · obtain ⟨y, hy, hyv⟩ := hmem
      rcases List.mem_cons.mp hy with rfl | hy'
      · rw [if_pos hyv]
        cases hres : xs.foldl (fun acc vk => if vk.1 = v then some vk.2 else acc)
            (some y.2) with
        | none =>
          obtain ⟨h1, _⟩ := lastWins_none hres
          simp at h1
        | some q =>
          refine ⟨q, rfl, ?_⟩
          rcases lastWins_some hres with h1 | h1
          · exact absurd ⟨(v, q), h1, rfl⟩ hxs
          · simp only [Option.some.injEq] at h1
            subst h1
            have hy2 : (v, y.2) = y := by
              obtain ⟨a, b⟩ := y
              simp only at hyv
              rw [hyv]
            rw [hy2]
            exact List.mem_cons_self y xs
      · exact absurd ⟨y, hy', hyv⟩ hxs

theorem mem_valuePairs {t : Template} {v p : String} :
    (v, p) ∈ t.placeholders.flatMap (fun pc => pc.2.map (fun val => (val, pc.1))) ↔
      ∃ cs, (p, cs) ∈ t.placeholders ∧ v ∈ cs := by
  simp only [List.mem_flatMap, List.mem_map, Prod.mk.injEq]
  constructor
  · rintro ⟨pc, hpc, val, hval, rfl, rfl⟩
    exact ⟨pc.2, by simpa using hpc, hval⟩
  · rintro ⟨cs, hcs, hv⟩
    exact ⟨(p, cs), hcs, v, hv, rfl, rfl⟩

theorem value_to_placeholder_some {t : Template} {v p : String}
    (h : t.value_to_placeholder v = some p) :
    ∃ cs, (p, cs) ∈ t.placeholders ∧ v ∈ cs := by
  rcases lastWins_some h with h1 | h1
  · exact mem_valuePairs.mp h1
  · simp at h1

theorem value_to_placeholder_none {t : Template} {v : String}
    (h : t.value_to_placeholder v = none) :
    ∀ pc ∈ t.placeholders, v ∉ pc.2 := by
  obtain ⟨-, h2⟩ := lastWins_none h
  intro pc hpc hv
  exact h2 (v, pc.1) (mem_valuePairs.mpr ⟨pc.2, by simpa using hpc, hv⟩) rfl

theorem value_to_placeholder_eq_some {t : Template} {v p : String} {cs : List String}
    (hmem : (p, cs) ∈ t.placeholders) (hv : v ∈ cs)
    (huniq : ∀ qc ∈ t.placeholders, v ∈ qc.2 → qc.1 = p) :
    t.value_to_placeholder v = some p := by
  obtain ⟨q, hq, hqm⟩ := lastWins_isSome (v := v) (l :=
      t.placeholders.flatMap (fun pc => pc.2.map (fun val => (val, pc.1)))) none
    ⟨(v, p), mem_valuePairs.mpr ⟨cs, hmem, hv⟩, rfl⟩
  obtain ⟨cs', hcs', hvcs'⟩ := mem_valuePairs.mp hqm
  have hqp : q = p := huniq (q, cs') hcs' hvcs'
  rw [Template.value_to_placeholder, hq, hqp]

/-! ## Helper lemmas about `choicesOf` and keyed lookup -/

theorem find?_keyed {l : List (String × List String)} {p : String} {cs : List String}
    (hnd : (l.map Prod.fst).Nodup) (hmem : (p, cs) ∈ l) :
    l.find? (fun pc => pc.1 == p) = some (p, cs) := by
  induction l with
  | nil => simp at hmem
  | cons e rest ih =>
    simp only [List.map_cons, List.nodup_cons] at hnd
    rcases List.mem_cons.mp hmem with rfl | hmem'
    · simp [List.find?_cons]
    · have hne : ¬(e.1 == p) = true := by
        simp only [beq_iff_eq]
        intro hc
        exact hnd.1 (hc ▸ List.mem_map.mpr ⟨(p, cs), hmem', rfl⟩)
      rw [List.find?_cons]
      simp only [hne]
      exact ih hnd.2 hmem'

theorem choicesOf_eq {t : Template} {p : String} {cs : List String}
    (hnd : (t.placeholders.map Prod.fst).Nodup) (hmem : (p, cs) ∈ t.placeholders) :
    t.choicesOf p = cs := by
  rw [Template.choicesOf, find?_keyed hnd hmem]
  rfl

/-! ## Helper lemmas about `split_filter` -/

theorem split_filter_foldl (d : TemplateDiscovery) (fs : List String) (out : Filters) :
    fs.foldl
      (fun out f =>
        if d.templates.any (fun t => t.name == f) then
          { out with template_filters := out.template_filters ++ [f] }
        else
          { out with placeholder_filters := out.placeholder_filters ++ [f] })
      out =
    ⟨out.template_filters ++ fs.filter (fun f => d.templates.any (fun t => t.name == f)),
     out.placeholder_filters ++
       fs.filter (fun f => !(d.templates.any (fun t => t.name == f)))⟩ := by
  induction fs generalizing out with
  | nil => simp
  | cons f rest ih =>
    simp only [List.foldl_cons, List.filter_cons]
    by_cases hf : (d.templates.any (fun t => t.name == f)) = true
    · rw [if_pos hf, ih]
      simp [hf]
    · rw [if_neg hf, ih]
      simp only [Bool.not_eq_true] at hf
      simp [hf]

theorem split_filter_eq (d : TemplateDiscovery) (fs : List String) :
    d.split_filter fs =
      ⟨fs.filter (fun f => d.templates.any (fun t => t.name == f)),
       fs.filter (fun f => !(d.templates.any (fun t => t.name == f)))⟩ := by
  rw [TemplateDiscovery.split_filter, split_filter_foldl]
  simp

/-! ## Helper lemmas about the `filter_variants` loop -/

theorem fvLoop_unknownFilter {pf : List String} {ts : List Template} {hasU : Bool}
    {unk : Option String} {acc : List (Template × List Define)} {tok : String}
    (h : fvLoop pf ts hasU unk acc = .unknownFilter tok) :
    (∀ t ∈ ts, ∃ e, t.variants pf = .unknown e) ∧
      ((∃ t ∈ ts, t.variants pf = .unknown tok) ∨ unk = some tok) ∧
      hasU = true := by
  induction ts generalizing hasU unk acc with
  | nil =>
    cases hasU with
    | false => simp [fvLoop] at h
    | true =>
      cases unk with
      | none => simp [fvLoop] at h
      | some tok' =>
        have h2 : tok' = tok := by
          have h3 : FVResult.unknownFilter tok' = FVResult.unknownFilter tok := by
            simpa [fvLoop] using h
          simpa using h3
        subst h2
        exact ⟨by simp, Or.inr rfl, rfl⟩
  | cons t ts ih =>
    cases hv : t.variants pf with
    | panic => simp [fvLoop, hv] at h
    | unknown e =>
      simp only [fvLoop, hv] at h
      obtain ⟨h1, h2, h3⟩ := ih h
      refine ⟨?_, ?_, h3⟩
      · intro t' ht'
        rcases List.mem_cons.mp ht' with rfl | ht''
        · exact ⟨e, hv⟩
        · exact h1 t' ht''
      · rcases h2 with ⟨t', ht', hv'⟩ | h2
        · exact Or.inl ⟨t', by simp [ht'], hv'⟩
        · simp only [Option.some.injEq] at h2
          subst h2
          exact Or.inl ⟨t, by simp, hv⟩
    | ok vs =>
      simp only [fvLoop, hv] at h
      obtain ⟨-, -, h3⟩ := ih h
      simp at h3

theorem fvLoop_not_unknown_of_ok {pf : List String} {ts : List Template}
    {unk : Option String} {acc : List (Template × List Define)}
    (t : Template) (ht : t ∈ ts) {vs : List (List Define)}
    (hok : t.variants pf = .ok vs) (hasU : Bool) (tok : String) :
    fvLoop pf ts hasU unk acc ≠ .unknownFilter tok := by
  intro h
  obtain ⟨h1, -, -⟩ := fvLoop_unknownFilter h
  obtain ⟨e, he⟩ := h1 t ht
  rw [hok] at he
  exact absurd he (by simp)

/-! ## Helper lemmas about the `--execute` loop -/

theorem executeLoop_all_exited {os : List SpawnOutcome}
    (hall : ∀ o ∈ os, ∃ b, o = SpawnOutcome.exited b) (n : Nat) (s : Bool) :
    (executeLoop os n s).1 = n + os.length ∧
      ((executeLoop os n s).2 = .ok () ↔
        (s = true ∧ SpawnOutcome.exited false ∉ os)) := by
  induction os generalizing n s with
  | nil =>
    refine ⟨by simp [executeLoop], ?_⟩
    cases s <;> simp [executeLoop]
  | cons o os ih =>
    obtain ⟨b, rfl⟩ := hall o (by simp)
    simp only [executeLoop]
    obtain ⟨ih1, ih2⟩ := ih (fun o' ho' => hall o' (by simp [ho'])) (n + 1) (s && b)
    refine ⟨by rw [ih1]; simp [List.length_cons]; omega, ?_⟩
    rw [ih2]
    cases s <;> cases b <;> simp

theorem executeLoop_spawnFail {pre : List SpawnOutcome} (post : List SpawnOutcome)
    (hpre : ∀ o ∈ pre, ∃ b, o = SpawnOutcome.exited b) (n : Nat) (s : Bool) :
    (executeLoop (pre ++ SpawnOutcome.spawnFail :: post) n s).1 = n + pre.length + 1 ∧
      (executeLoop (pre ++ SpawnOutcome.spawnFail :: post) n s).2 =
        .error "Process spawning failed" := by
  induction pre generalizing n s with
  | nil => simp [executeLoop]
  | cons o pre ih =>
    obtain ⟨b, rfl⟩ := hpre o (by simp)
    simp only [List.cons_append, executeLoop, List.append_eq]
    obtain ⟨ih1, ih2⟩ := ih (fun o' ho' => hpre o' (by simp [ho'])) (n + 1) (s && b)
    refine ⟨by rw [ih1]; simp [List.length_cons]; omega, ih2⟩

/-! ## Helper lemmas about `Forall₂` selections and counting products -/

theorem forall₂_append_cons {α β : Type _} {R : α → β → Prop} {sel : List α}
    {l₁ : List β} {x : β} {l₂ : List β}
    (h : List.Forall₂ R sel (l₁ ++ x :: l₂)) :
    ∃ s₁ a s₂, sel = s₁ ++ a :: s₂ ∧ List.Forall₂ R s₁ l₁ ∧ R a x ∧
      List.Forall₂ R s₂ l₂ := by
  induction l₁ generalizing sel with
  | nil =>
    cases h with
    | cons ha htail => exact ⟨[], _, _, rfl, List.Forall₂.nil, ha, htail⟩
  | cons y l₁ ih =>
    cases h with
    | cons ha htail =>
      obtain ⟨s₁, a, s₂, rfl, h1, h2, h3⟩ := ih htail
      exact ⟨_ :: s₁, a, s₂, rfl, List.Forall₂.cons ha h1, h2, h3⟩

theorem prod_count_one {f : (String × List String) → List String} {sel : List String}
    {ps : List (String × List String)}
    (h : List.Forall₂ (fun c e => c ∈ f e) sel ps)
    (hnd : ∀ e ∈ ps, (f e).Nodup) :
    (List.zipWith (fun e c => List.count c (f e)) ps sel).prod = 1 := by
  induction h with
  | nil => simp
  | cons ha htail ih =>
    simp only [List.zipWith_cons_cons, List.prod_cons]
    rw [List.count_eq_one_of_mem (hnd _ (by simp)) ha,
      ih (fun e he => hnd e (by simp [he])), one_mul]

/-! ## Bridging lemmas for `Template.variants` -/

theorem variants_ok_inv {t : Template} {filter : List String} {vs : List (List Define)}
    (h : t.variants filter = .ok vs) :
    ∃ m, t.fillVariantMap filter (initMap t) = .ok m ∧
      t.variantsCore m [[]] = some vs := by
  rw [Template.variants] at h
  split at h
  · simp at h
  · next m heq =>
    split at h
    · simp at h
    · next vs' hc =>
      simp only [VResult.ok.injEq] at h
      exact ⟨m, heq, by rw [hc, h]⟩

theorem initMap_keys (t : Template) :
    (initMap t).map Prod.fst = t.placeholders.map Prod.fst := by
  rw [initMap, List.map_map]
  rfl

theorem fillVariantMap_keys {t : Template} {fs : List String}
    {m m' : List (String × List String)} (h : t.fillVariantMap fs m = .ok m') :
    m'.map Prod.fst = m.map Prod.fst := by
  rw [fillVariantMap_ok_eq h, List.map_map]
  rfl

theorem variants_keys {t : Template} {filter : List String} {vs : List (List Define)}
    (h : t.variants filter = .ok vs) :
    ∀ v ∈ vs, v.map Define.key = t.placeholders.map Prod.fst := by
  obtain ⟨m, hfill, hcore⟩ := variants_ok_inv h
  intro v hv
  obtain ⟨w, hw, sel, hsel, rfl⟩ := variantsCore_shape hcore v hv
  simp only [List.mem_singleton] at hw
  subst hw
  rw [List.nil_append, zipDefines_map_key hsel.length_eq, fillVariantMap_keys hfill,
    initMap_keys]

theorem resolveValues_initMap {t : Template}
    (hkeys : (t.placeholders.map Prod.fst).Nodup) :
    (initMap t).map (fun e => (e.1, t.resolveValues e)) = t.placeholders := by
  rw [initMap, List.map_map]
  have h : ∀ pc ∈ t.placeholders,
      ((fun e => (e.1, t.resolveValues e)) ∘
        (fun pc => (pc.1, ([] : List String)))) pc = id pc := by
    intro pc hpc
    have hmem : (pc.1, pc.2) ∈ t.placeholders := by
      rw [Prod.mk.eta]
      exact hpc
    simp only [Function.comp, Template.resolveValues, List.isEmpty_nil, if_true, id]
    rw [choicesOf_eq hkeys hmem]
  rw [List.map_congr_left h, List.map_id]

/-! ## Claim C1 -/

/-- C1: for every template (satisfying the data-model invariants: unique
placeholder names, at least one choice per placeholder, no duplicate choices
within a placeholder) and an empty filter list, `Template::variants` returns
exactly `c_1 * ... * c_n` variants, and the variant of every possible
combination of one choice per placeholder occurs exactly once in the
result. -/
theorem C1_cartesian_completeness (t : Template)
    (hkeys : (t.placeholders.map Prod.fst).Nodup)
    (hne : ∀ pc ∈ t.placeholders, pc.2 ≠ [])
    (hnodup : ∀ pc ∈ t.placeholders, pc.2.Nodup) :
    ∃ vs, t.variants [] = .ok vs ∧
      vs.length = (t.placeholders.map (fun pc => pc.2.length)).prod ∧
      ∀ sel, List.Forall₂ (fun c pc => c ∈ pc.2) sel t.placeholders →
        List.count (zipDefines t.placeholders sel) vs = 1 := by
  have hres := resolveValues_initMap hkeys
  have hne2 : ∀ e ∈ initMap t, t.resolveValues e ≠ [] := by
    intro e he
    have : (e.1, t.resolveValues e) ∈ t.placeholders := by
      rw [← hres]
      exact List.mem_map.mpr ⟨e, he, rfl⟩
    exact hne _ this
  obtain ⟨vs, hvs⟩ := variantsCore_isSome hne2 [[]]
  refine ⟨vs, ?_, ?_, ?_⟩
  · rw [Template.variants]
    show (match t.variantsCore (initMap t) [[]] with
      | none => VResult.panic
      | some vs => VResult.ok vs) = VResult.ok vs
    rw [hvs]
  · rw [variantsCore_length hvs]
    have hmaps : (initMap t).map (fun e => (t.resolveValues e).length) =
        t.placeholders.map (fun pc => pc.2.length) := by
      have : t.placeholders.map (fun pc => pc.2.length) =
          ((initMap t).map (fun e => (e.1, t.resolveValues e))).map
            (fun pc => pc.2.length) := by rw [hres]
      rw [this, List.map_map]
      rfl
    rw [hmaps]
    simp
  · intro sel hsel
    have hlen : sel.length = (initMap t).length := by
      rw [hsel.length_eq, initMap, List.length_map]
    have hcount := variantsCore_count hvs hlen []
    rw [List.nil_append] at hcount
    have hzd : zipDefines (initMap t) sel = zipDefines t.placeholders sel :=
      zipDefines_eq_of_keys (initMap_keys t) sel
    rw [hzd] at hcount
    rw [hcount]
    have hzip : List.zipWith (fun e c => List.count c (t.resolveValues e))
        (initMap t) sel =
        List.zipWith (fun e c => List.count c e.2) t.placeholders sel := by
      rw [← hres, List.zipWith_map_left]
    rw [hzip]
    have hf2 : List.Forall₂ (fun c e => c ∈ Prod.snd e) sel t.placeholders := hsel
    rw [prod_count_one hf2 (fun e he => hnodup e he)]
    simp

/-- Witness for C1 at the source's `test_template`. -/
theorem C1_cartesian_completeness_witness :
    ∃ vs, testTemplate.variants [] = .ok vs ∧
      vs.length = (testTemplate.placeholders.map (fun pc => pc.2.length)).prod ∧
      ∀ sel, List.Forall₂ (fun c pc => c ∈ pc.2) sel testTemplate.placeholders →
        List.count (zipDefines testTemplate.placeholders sel) vs = 1 :=
  C1_cartesian_completeness testTemplate (by decide) (by decide) (by decide)

/-! ## Claim C5 -/

/-- C5: whenever `Template::variants` succeeds, the `Define` sequence of
every returned variant lists the placeholders in the template's declaration
order, regardless of the filter token order. -/
theorem C5_declared_order (t : Template) (filter : List String)
    (vs : List (List Define)) (hok : t.variants filter = .ok vs) :
    ∀ v ∈ vs, v.map Define.key = t.placeholders.map Prod.fst :=
  variants_keys hok

/-- Witness for C5 at the source's `test_template` with filter tokens given
in reverse declared order, evaluated at the first returned variant. -/
theorem C5_declared_order_witness :
    List.map Define.key
        [Define.mk "integration" "cargo-gpu", Define.mk "api" "wgpu"] =
      testTemplate.placeholders.map Prod.fst :=
  C5_declared_order testTemplate ["wgpu", "ash"]
    [[Define.mk "integration" "cargo-gpu", Define.mk "api" "wgpu"],
     [Define.mk "integration" "spirv-builder", Define.mk "api" "wgpu"],
     [Define.mk "integration" "cargo-gpu", Define.mk "api" "ash"],
     [Define.mk "integration" "spirv-builder", Define.mk "api" "ash"]]
    (by decide)
    [Define.mk "integration" "cargo-gpu", Define.mk "api" "wgpu"] (by decide)

/-! ## Claim C6 -/

/-- C6: whenever `Template::variants` succeeds (for a template with unique
placeholder names), every returned variant contains exactly one `Define`
per placeholder, and no two `Define`s in one variant share a key. -/
theorem C6_no_duplicate_defines (t : Template) (filter : List String)
    (vs : List (List Define))
    (hkeys : (t.placeholders.map Prod.fst).Nodup)
    (hok : t.variants filter = .ok vs) :
    ∀ v ∈ vs,
      (∀ pc ∈ t.placeholders, (v.filter (fun d => d.key == pc.1)).length = 1) ∧
        (v.map Define.key).Nodup := by
  intro v hv
  have hk := variants_keys hok v hv
  refine ⟨?_, hk ▸ hkeys⟩
  intro pc hpc
  rw [← List.countP_eq_length_filter]
  have h1 : v.countP (fun d => d.key == pc.1) =
      List.count pc.1 (v.map Define.key) := by
    rw [List.count, List.countP_map]
    rfl
  rw [h1, hk]
  exact List.count_eq_one_of_mem hkeys (List.mem_map.mpr ⟨pc, hpc, rfl⟩)

/-- Witness for C6 at the source's `test_template` with no filter,
evaluated at the first returned variant. -/
theorem C6_no_duplicate_defines_witness :
    (∀ pc ∈ testTemplate.placeholders,
      (List.filter (fun d => d.key == pc.1)
        [Define.mk "integration" "cargo-gpu", Define.mk "api" "ash"]).length = 1) ∧
      (List.map Define.key
        [Define.mk "integration" "cargo-gpu", Define.mk "api" "ash"]).Nodup :=
  C6_no_duplicate_defines testTemplate []
    [[Define.mk "integration" "cargo-gpu", Define.mk "api" "ash"],
     [Define.mk "integration" "spirv-builder", Define.mk "api" "ash"],
     [Define.mk "integration" "cargo-gpu", Define.mk "api" "wgpu"],
     [Define.mk "integration" "spirv-builder", Define.mk "api" "wgpu"],
     [Define.mk "integration" "cargo-gpu", Define.mk "api" "cpu"],
     [Define.mk "integration" "spirv-builder", Define.mk "api" "cpu"]]
    (by decide) (by decide)
    [Define.mk "integration" "cargo-gpu", Define.mk "api" "ash"] (by decide)

/-! ## Claim C10 -/

/-- A discovery containing only the source's `test_template`. -/
def discoveryOne : TemplateDiscovery := ⟨[testTemplate]⟩

/-- C10: filter classification gives template names precedence: a token
equal to the name of some discovered template always lands in
`template_filters` and never in `placeholder_filters` — the only list
later resolved against placeholder choice values — so a choice value that
coincides with a discovered template's name can never act as a placeholder
filter. -/
theorem C10_template_name_precedence (d : TemplateDiscovery) (fs : List String)
    (tok : String) (htok : tok ∈ fs)
    (hname : ∃ t ∈ d.templates, t.name = tok) :
    tok ∈ (d.split_filter fs).template_filters ∧
      tok ∉ (d.split_filter fs).placeholder_filters := by
  rw [split_filter_eq]
  obtain ⟨t, ht, htn⟩ := hname
  have hpred : (d.templates.any (fun t => t.name == tok)) = true :=
    List.any_eq_true.mpr ⟨t, ht, by simp [htn]⟩
  constructor
  · exact List.mem_filter.mpr ⟨htok, hpred⟩
  · intro hc
    have h2 := (List.mem_filter.mp hc).2
    rw [hpred] at h2
    simp at h2

/-- Witness for C10 with the `test_template` discovery and a token equal to
its name. -/
theorem C10_template_name_precedence_witness :
    "my-template" ∈
        (discoveryOne.split_filter ["my-template", "ash"]).template_filters ∧
      "my-template" ∉
        (discoveryOne.split_filter ["my-template", "ash"]).placeholder_filters :=
  C10_template_name_precedence discoveryOne ["my-template", "ash"] "my-template"
    (by decide) (by decide)

/-! ## Claim C3 -/

/-- C3 as amended: with a supplied post-generation command, the executor
attempts the command in every directory even when earlier invocations exited
non-zero, and (when every spawn succeeds) returns a single failure at the
end iff at least one invocation exited non-zero; but an invocation that
fails to spawn aborts the loop immediately, skipping later directories. -/
theorem C3_execute_aggregation (cmd : String) (outcomes : List SpawnOutcome) :
    ((∀ o ∈ outcomes, ∃ b, o = SpawnOutcome.exited b) →
      (Generate.execute (some cmd) outcomes).1 = outcomes.length ∧
        ((Generate.execute (some cmd) outcomes).2 = .ok () ↔
          SpawnOutcome.exited false ∉ outcomes)) ∧
    (∀ pre post, outcomes = pre ++ SpawnOutcome.spawnFail :: post →
      (∀ o ∈ pre, ∃ b, o = SpawnOutcome.exited b) →
      (Generate.execute (some cmd) outcomes).1 = pre.length + 1 ∧
        (Generate.execute (some cmd) outcomes).2 =
          .error "Process spawning failed") := by
  constructor
  · intro hall
    obtain ⟨h1, h2⟩ := executeLoop_all_exited hall 0 true
    constructor
    · simpa using h1
    · simpa using h2
  · rintro pre post rfl hpre
    obtain ⟨h1, h2⟩ := executeLoop_spawnFail post hpre 0 true
    exact ⟨by simpa using h1, h2⟩

/-- Witness for C3 at a two-directory run with one non-zero exit. -/
theorem C3_execute_aggregation_witness :
    (Generate.execute (some "cargo check")
        [SpawnOutcome.exited true, SpawnOutcome.exited false]).1 = 2 ∧
      ((Generate.execute (some "cargo check")
        [SpawnOutcome.exited true, SpawnOutcome.exited false]).2 = .ok () ↔
        SpawnOutcome.exited false ∉
          [SpawnOutcome.exited true, SpawnOutcome.exited false]) :=
  (C3_execute_aggregation "cargo check"
    [SpawnOutcome.exited true, SpawnOutcome.exited false]).1 (by decide)

/-- Counterexample to C3 as stated: with outcomes `[spawnFail, exited true]`
the executor attempts only 1 of the 2 directories — the `?` on `spawn()`
aborts the loop at the first spawn failure instead of attempting every
directory. -/
theorem C3_counterexample :
    (Generate.execute (some "cargo check")
        [SpawnOutcome.spawnFail, SpawnOutcome.exited true]).1 = 1 ∧
      (1 : Nat) ≠ 2 ∧
      (Generate.execute (some "cargo check")
        [SpawnOutcome.spawnFail, SpawnOutcome.exited true]).2 =
        .error "Process spawning failed" :=
  ⟨rfl, by decide, rfl⟩

/-! ## Claim C8 -/

/-- C8 as amended: a root descriptor listing zero sub-templates is not a
discovery error — discovery succeeds with an empty template list — but a
run over an empty template set with an empty filter list then fails inside
`filter_variants` with the `No templates exist?` error instead of yielding
zero variants. -/
theorem C8_empty_discovery (root : RootTemplate)
    (parse : String → Except String Template)
    (h : root.sub_templates.getD [] = []) :
    discover_at ⟨some root⟩ parse = .ok ⟨[]⟩ ∧
      TemplateDiscovery.filter_variants ⟨[]⟩ [] = .noTemplates := by
  constructor
  · simp [discover_at, h]
    rfl
  · rfl

/-- Witness for C8 at a root descriptor with an explicit empty
sub-template list. -/
theorem C8_empty_discovery_witness :
    discover_at ⟨some ⟨some []⟩⟩ (fun _ => Except.error "") = .ok ⟨[]⟩ ∧
      TemplateDiscovery.filter_variants ⟨[]⟩ [] = .noTemplates :=
  C8_empty_discovery ⟨some []⟩ (fun _ => Except.error "") (by decide)

/-- Counterexample to C8 as stated: a run over an empty template set with an
empty filter list does not yield zero variants without failing —
`filter_variants` returns the `No templates exist?` error, not `Ok` with an
empty variant list. -/
theorem C8_counterexample :
    TemplateDiscovery.filter_variants ⟨[]⟩ [] = .noTemplates ∧
      TemplateDiscovery.filter_variants ⟨[]⟩ [] ≠ .ok [] :=
  ⟨rfl, by decide⟩

/-! ## Claim C4 -/

/-- C4 as amended: under a filter list in which every token resolves to some
placeholder, the candidate-choice list of a placeholder with at least one
matching token is exactly the matching tokens in the order they appear in
the FILTER list (not in declared-choices order), and the candidate list of
a placeholder with no matching token is its full declared choice list. -/
theorem C4_candidate_lists (t : Template) (filter : List String) (p : String)
    (cs : List String)
    (hkeys : (t.placeholders.map Prod.fst).Nodup)
    (hmem : (p, cs) ∈ t.placeholders)
    (hres : ∀ v ∈ filter, (t.value_to_placeholder v).isSome) :
    t.candidates filter p =
      some
        (if (filter.filter (fun v => t.value_to_placeholder v == some p)).isEmpty
          then cs
          else filter.filter (fun v => t.value_to_placeholder v == some p)) := by
  obtain ⟨m, hm⟩ := fillVariantMap_ok_of_resolves hres (initMap t)
  have hc : t.candidates filter p =
      (m.find? (fun e => e.1 == p)).map (fun e => t.resolveValues e) := by
    unfold Template.candidates
    rw [hm]
  have hmeq : m = t.placeholders.map
      (fun pc =>
        (pc.1, filter.filter (fun v => t.value_to_placeholder v == some pc.1))) := by
    rw [fillVariantMap_ok_eq hm, initMap, List.map_map]
    rfl
  rw [hc, hmeq, List.find?_map]
  have hcomp : ((fun (e : String × List String) => e.1 == p) ∘
      (fun (pc : String × List String) =>
        (pc.1, filter.filter (fun v => t.value_to_placeholder v == some pc.1)))) =
      (fun (pc : String × List String) => pc.1 == p) := rfl
  rw [hcomp, find?_keyed hkeys hmem]
  show some (t.resolveValues
      (p, filter.filter (fun v => t.value_to_placeholder v == some p))) = _
  rw [Template.resolveValues]
  show some (if (filter.filter
      (fun v => t.value_to_placeholder v == some p)).isEmpty
    then t.choicesOf p
    else filter.filter (fun v => t.value_to_placeholder v == some p)) = _
  rw [choicesOf_eq hkeys hmem]

/-- Witness for C4 at the source's `test_template` with a single `api`
token. -/
theorem C4_candidate_lists_witness :
    testTemplate.candidates ["cpu"] "api" =
      some
        (if ((["cpu"] : List String).filter
            (fun v => testTemplate.value_to_placeholder v == some "api")).isEmpty
          then ["ash", "wgpu", "cpu"]
          else (["cpu"] : List String).filter
            (fun v => testTemplate.value_to_placeholder v == some "api")) :=
  C4_candidate_lists testTemplate ["cpu"] "api" ["ash", "wgpu", "cpu"]
    (by decide) (by decide) (by decide)

/-- Counterexample to C4 as stated: with filter tokens `["wgpu", "ash"]`
the code's candidate list for placeholder `api` of `test_template` is
`["wgpu", "ash"]` — the filter-list order — while the claim's
declared-choices order (computed by `specCandidates`, written from the
spec's words) would be `["ash", "wgpu"]`. -/
theorem C4_counterexample :
    testTemplate.candidates ["wgpu", "ash"] "api" = some ["wgpu", "ash"] ∧
      specCandidates testTemplate ["wgpu", "ash"] "api" = ["ash", "wgpu"] ∧
      (["wgpu", "ash"] : List String) ≠ ["ash", "wgpu"] :=
  ⟨by decide, by decide, by decide⟩

/-! ## Claim C2 -/

theorem variants_unknown_inv {t : Template} {filter : List String} {e : String}
    (h : t.variants filter = .unknown e) :
    e ∈ filter ∧ t.value_to_placeholder e = none := by
  rw [Template.variants] at h
  split at h
  · next v heq =>
    simp only [VResult.unknown.injEq] at h
    subst h
    exact fillVariantMap_error heq
  · split at h <;> simp at h

/-- Template `A` of the disjoint-vocabulary discovery: one placeholder `p`
with the single choice `x`. -/
def templateA : Template :=
  { name := "A", template_dir := "./A/", placeholders := [("p", ["x"])] }

/-- Template `B` of the disjoint-vocabulary discovery: one placeholder `q`
with the single choice `y`. -/
def templateB : Template :=
  { name := "B", template_dir := "./B/", placeholders := [("q", ["y"])] }

/-- A discovery holding two templates with disjoint placeholder
vocabularies. -/
def dAB : TemplateDiscovery := ⟨[templateA, templateB]⟩

/-- C2 as amended: whenever `filter_variants` bails with the unknown-filter
error echoing token `tok`, every in-scope template has at least one
placeholder-filter token it cannot resolve, and `tok` is a
placeholder-filter token that at least one in-scope template (the last one
to fail) cannot resolve. The error is per-template, not per-token: it does
NOT require `tok` (or any token) to be unresolved in every in-scope
template, and contrapositively it is only avoided for sure when some single
in-scope template resolves every token. -/
theorem C2_unknown_filter (d : TemplateDiscovery) (fs : List String) (tok : String)
    (h : d.filter_variants fs = .unknownFilter tok) :
    (∀ t ∈ d.in_scope (d.split_filter fs),
      ∃ e ∈ (d.split_filter fs).placeholder_filters,
        t.value_to_placeholder e = none) ∧
      tok ∈ (d.split_filter fs).placeholder_filters ∧
      (∃ t ∈ d.in_scope (d.split_filter fs),
        t.value_to_placeholder tok = none) := by
  simp only [TemplateDiscovery.filter_variants] at h
  obtain ⟨h1, h2, -⟩ := fvLoop_unknownFilter h
  have h2' : ∃ t ∈ d.in_scope (d.split_filter fs),
      t.variants (d.split_filter fs).placeholder_filters = .unknown tok := by
    rcases h2 with h2 | h2
    · exact h2
    · simp at h2
  refine ⟨?_, ?_, ?_⟩
  · intro t ht
    obtain ⟨e, he⟩ := h1 t ht
    obtain ⟨he1, he2⟩ := variants_unknown_inv he
    exact ⟨e, he1, he2⟩
  · obtain ⟨t, -, hv⟩ := h2'
    exact (variants_unknown_inv hv).1
  · obtain ⟨t, ht, hv⟩ := h2'
    exact ⟨t, ht, (variants_unknown_inv hv).2⟩

/-- Witness for C2 at the disjoint-vocabulary discovery, where
`filter_variants ["x", "y"]` bails echoing `x`. -/
theorem C2_unknown_filter_witness :
    (∀ t ∈ dAB.in_scope (dAB.split_filter ["x", "y"]),
      ∃ e ∈ (dAB.split_filter ["x", "y"]).placeholder_filters,
        t.value_to_placeholder e = none) ∧
      "x" ∈ (dAB.split_filter ["x", "y"]).placeholder_filters ∧
      (∃ t ∈ dAB.in_scope (dAB.split_filter ["x", "y"]),
        t.value_to_placeholder "x" = none) :=
  C2_unknown_filter dAB ["x", "y"] "x" (by decide)

/-- Counterexample to C2 as stated: with in-scope templates `A`
(placeholder `p`, choices `["x"]`) and `B` (placeholder `q`, choices
`["y"]`) and filter list `["x", "y"]`, each token resolves in at least one
in-scope template — `x` is a choice value of `A` and `y` of `B` — yet the
run fails with an unknown-filter error; moreover the echoed token `x`
itself resolves in in-scope template `A`, contradicting the claim that the
message echoes a token that resolved nowhere. -/
theorem C2_counterexample :
    dAB.filter_variants ["x", "y"] = .unknownFilter "x" ∧
      dAB.in_scope (dAB.split_filter ["x", "y"]) = [templateA, templateB] ∧
      templateA.value_to_placeholder "x" = some "p" ∧
      templateB.value_to_placeholder "y" = some "q" :=
  ⟨by decide, by decide, by decide, by decide⟩

/-! ## Helpers for uniformly resolved filters (claims C7 and C9) -/

theorem filled_entries {t : Template} {filter : List String} {p : String}
    {m : List (String × List String)}
    (hvtp : ∀ tok ∈ filter, t.value_to_placeholder tok = some p)
    (hm : t.fillVariantMap filter (initMap t) = .ok m) :
    m = t.placeholders.map
      (fun pc => (pc.1, if pc.1 = p then filter else [])) := by
  rw [fillVariantMap_ok_eq hm, initMap, List.map_map]
  refine List.map_congr_left (fun pc hpc => ?_)
  simp only [Function.comp]
  by_cases hp : pc.1 = p
  · rw [if_pos hp]
    have hf : filter.filter (fun v => t.value_to_placeholder v == some pc.1) =
        filter :=
      List.filter_eq_self.mpr (fun v hv => by rw [hvtp v hv, hp]; simp)
    rw [hf]
    simp
  · rw [if_neg hp]
    have hf : filter.filter (fun v => t.value_to_placeholder v == some pc.1) =
        [] := by
      rw [List.filter_eq_nil_iff]
      intro v hv
      rw [hvtp v hv]
      simp
      intro hc
      exact hp hc.symm
    rw [hf]
    simp

theorem resolve_filled {t : Template} {filter : List String} {p : String}
    (hkeys : (t.placeholders.map Prod.fst).Nodup) (hfne : filter ≠ [])
    {pc : String × List String} (hpc : pc ∈ t.placeholders) :
    t.resolveValues (pc.1, if pc.1 = p then filter else []) =
      if pc.1 = p then filter else pc.2 := by
  by_cases hp : pc.1 = p
  · obtain ⟨a, as, rfl⟩ : ∃ a as, filter = a :: as := by
      cases filter with
      | nil => exact absurd rfl hfne
      | cons a as => exact ⟨a, as, rfl⟩
    rw [if_pos hp, if_pos hp]
    rfl
  · rw [if_neg hp, if_neg hp, Template.resolveValues]
    simp only [List.isEmpty_nil, if_true]
    exact choicesOf_eq hkeys (by rw [Prod.mk.eta]; exact hpc)

theorem keys_ne_of_split {t : Template} {pre post : List (String × List String)}
    {p : String} {cs : List String}
    (hkeys : (t.placeholders.map Prod.fst).Nodup)
    (hsplit : t.placeholders = pre ++ (p, cs) :: post) :
    (∀ qc ∈ pre, qc.1 ≠ p) ∧ (∀ qc ∈ post, qc.1 ≠ p) := by
  rw [hsplit, List.map_append, List.map_cons, List.nodup_append] at hkeys
  obtain ⟨h1, h2, h3⟩ := hkeys
  constructor
  · intro qc hqc hc
    exact h3 (List.mem_map.mpr ⟨qc, hqc, rfl⟩) (by simp [hc])
  · intro qc hqc hc
    rw [List.nodup_cons] at h2
    exact h2.1 (hc ▸ List.mem_map.mpr ⟨qc, hqc, rfl⟩)

theorem prod_map_filled {t : Template} {pre post : List (String × List String)}
    {p : String} {cs : List String}
    (hsplit : t.placeholders = pre ++ (p, cs) :: post)
    (hpre : ∀ qc ∈ pre, qc.1 ≠ p) (hpost : ∀ qc ∈ post, qc.1 ≠ p) (n : Nat) :
    (t.placeholders.map (fun pc => if pc.1 = p then n else pc.2.length)).prod =
      (pre.map (fun pc => pc.2.length)).prod * n *
        (post.map (fun pc => pc.2.length)).prod := by
  rw [hsplit, List.map_append, List.map_cons, List.prod_append, List.prod_cons,
    if_pos rfl,
    List.map_congr_left (fun qc hqc =>
      if_neg (hpre qc hqc) (t := n) (e := qc.2.length)),
    List.map_congr_left (fun qc hqc =>
      if_neg (hpost qc hqc) (t := n) (e := qc.2.length))]
  ring

theorem prod_map_lengths {t : Template} {pre post : List (String × List String)}
    {p : String} {cs : List String}
    (hsplit : t.placeholders = pre ++ (p, cs) :: post) :
    (t.placeholders.map (fun pc => pc.2.length)).prod =
      (pre.map (fun pc => pc.2.length)).prod * cs.length *
        (post.map (fun pc => pc.2.length)).prod := by
  rw [hsplit, List.map_append, List.map_cons, List.prod_append, List.prod_cons]
  ring

theorem variants_filled_length {t : Template} {filter : List String} {p : String}
    (hkeys : (t.placeholders.map Prod.fst).Nodup)
    (hne : ∀ pc ∈ t.placeholders, pc.2 ≠ [])
    (hfne : filter ≠ [])
    (hvtp : ∀ tok ∈ filter, t.value_to_placeholder tok = some p) :
    ∃ vs, t.variants filter = .ok vs ∧
      vs.length = (t.placeholders.map
        (fun pc => if pc.1 = p then filter.length else pc.2.length)).prod := by
  have hres : ∀ v ∈ filter, (t.value_to_placeholder v).isSome := by
    intro v hv
    rw [hvtp v hv]
    rfl
  obtain ⟨m, hm⟩ := fillVariantMap_ok_of_resolves hres (initMap t)
  have hment := filled_entries hvtp hm
  have hne2 : ∀ e ∈ m, t.resolveValues e ≠ [] := by
    rw [hment]
    intro e he
    obtain ⟨pc, hpc, rfl⟩ := List.mem_map.mp he
    rw [resolve_filled hkeys hfne hpc]
    by_cases hp : pc.1 = p
    · rw [if_pos hp]
      exact hfne
    · rw [if_neg hp]
      exact hne pc hpc
  obtain ⟨vs, hvs⟩ := variantsCore_isSome hne2 [[]]
  refine ⟨vs, ?_, ?_⟩
  · rw [Template.variants, hm]
    show (match t.variantsCore m [[]] with
      | none => VResult.panic
      | some vs => VResult.ok vs) = VResult.ok vs
    rw [hvs]
  · rw [variantsCore_length hvs, hment, List.map_map]
    have hpoint : ∀ pc ∈ t.placeholders,
        ((fun e => (t.resolveValues e).length) ∘
          (fun pc => (pc.1, if pc.1 = p then filter else []))) pc =
        (fun pc => if pc.1 = p then filter.length else pc.2.length) pc := by
      intro pc hpc
      simp only [Function.comp]
      rw [resolve_filled hkeys hfne hpc]
      by_cases hp : pc.1 = p
      · rw [if_pos hp, if_pos hp]
      · rw [if_neg hp, if_neg hp]
    rw [List.map_congr_left hpoint]
    simp

/-! ## Claim C7 -/

/-- C7: filtering with `i` distinct tokens that are choices of a single
placeholder with `k` declared choices (and of no other placeholder, with no
tokens for the other placeholders) yields exactly
`(total_unfiltered / k) * i` variants, where `total_unfiltered` is the
product of the declared choice-counts. Stated with the data-model
invariants (unique placeholder names, nonempty choice lists) as
hypotheses. -/
theorem C7_balanced_filtering (t : Template) (filter : List String) (p : String)
    (cs : List String)
    (hkeys : (t.placeholders.map Prod.fst).Nodup)
    (hne : ∀ pc ∈ t.placeholders, pc.2 ≠ [])
    (hmem : (p, cs) ∈ t.placeholders)
    (hfne : filter ≠ [])
    (hdis : filter.Nodup)
    (htok : ∀ v ∈ filter, v ∈ cs)
    (honly : ∀ v ∈ filter, ∀ qc ∈ t.placeholders, v ∈ qc.2 → qc.1 = p) :
    ∃ vs, t.variants filter = .ok vs ∧
      vs.length =
        ((t.placeholders.map (fun pc => pc.2.length)).prod / cs.length) *
          filter.length := by
  have hvtp : ∀ v ∈ filter, t.value_to_placeholder v = some p :=
    fun v hv => value_to_placeholder_eq_some hmem (htok v hv) (honly v hv)
  obtain ⟨vs, hok, hlen⟩ := variants_filled_length hkeys hne hfne hvtp
  refine ⟨vs, hok, ?_⟩
  obtain ⟨pre, post, hsplit⟩ := List.append_of_mem hmem
  obtain ⟨hpre, hpost⟩ := keys_ne_of_split hkeys hsplit
  rw [hlen, prod_map_filled hsplit hpre hpost filter.length,
    prod_map_lengths hsplit]
  have hcs : 0 < cs.length := by
    obtain ⟨v, hv⟩ := List.exists_mem_of_ne_nil filter hfne
    exact List.length_pos.mpr (List.ne_nil_of_mem (htok v hv))
  have h2 : (pre.map (fun pc => pc.2.length)).prod * cs.length *
      (post.map (fun pc => pc.2.length)).prod =
      cs.length * ((pre.map (fun pc => pc.2.length)).prod *
        (post.map (fun pc => pc.2.length)).prod) := by ring
  rw [h2, Nat.mul_div_cancel_left _ hcs]
  ring

/-- Witness for C7: filtering `test_template` to 2 of the 3 `api` choices
yields `(6 / 3) * 2 = 4` variants. -/
theorem C7_balanced_filtering_witness :
    ∃ vs, testTemplate.variants ["ash", "wgpu"] = .ok vs ∧
      vs.length =
        ((testTemplate.placeholders.map (fun pc => pc.2.length)).prod /
          (["ash", "wgpu", "cpu"] : List String).length) *
          (["ash", "wgpu"] : List String).length :=
  C7_balanced_filtering testTemplate ["ash", "wgpu"] "api" ["ash", "wgpu", "cpu"]
    (by decide) (by decide) (by decide) (by decide) (by decide) (by decide)
    (by decide)

/-! ## Claim C9 -/

/-- C9: variants are not deduplicated against repeated filter tokens.
Supplying the same placeholder-choice token `v` (resolving to placeholder
`p`) twice doubles the candidate list to `[v, v]`, so the output has twice
as many variants as the distinct-token filter `[v]` would produce —
strictly exceeding that product-formula count — and every variant selecting
that choice appears exactly twice. -/
theorem C9_duplicate_tokens (t : Template) (v p : String)
    (hkeys : (t.placeholders.map Prod.fst).Nodup)
    (hne : ∀ pc ∈ t.placeholders, pc.2 ≠ [])
    (hnodup : ∀ pc ∈ t.placeholders, pc.2.Nodup)
    (hres : t.value_to_placeholder v = some p) :
    ∃ vs1 vs2, t.variants [v] = .ok vs1 ∧ t.variants [v, v] = .ok vs2 ∧
      vs2.length = 2 * vs1.length ∧ vs1.length < vs2.length ∧
      ∀ w ∈ vs2, List.count w vs2 = 2 := by
  have hvtp1 : ∀ tok ∈ ([v] : List String),
      t.value_to_placeholder tok = some p := by
    intro tok htok
    rw [List.mem_singleton] at htok
    subst htok
    exact hres
  have hvtp2 : ∀ tok ∈ ([v, v] : List String),
      t.value_to_placeholder tok = some p := by
    intro tok htok
    rcases List.mem_cons.mp htok with rfl | htok'
    · exact hres
    · rw [List.mem_singleton] at htok'
      subst htok'
      exact hres
  obtain ⟨vs1, hok1, hlen1⟩ := variants_filled_length hkeys hne (by simp) hvtp1
  obtain ⟨vs2, hok2, hlen2⟩ := variants_filled_length hkeys hne (by simp) hvtp2
  obtain ⟨cs', hmem, hvcs⟩ := value_to_placeholder_some hres
  obtain ⟨pre, post, hsplit⟩ := List.append_of_mem hmem
  obtain ⟨hpre, hpost⟩ := keys_ne_of_split hkeys hsplit
  have hmempre : ∀ qc ∈ pre, qc ∈ t.placeholders := by
    intro qc hqc
    rw [hsplit]
    exact List.mem_append_left _ hqc
  have hmempost : ∀ qc ∈ post, qc ∈ t.placeholders := by
    intro qc hqc
    rw [hsplit]
    exact List.mem_append_right _ (by simp [hqc])
  have hprepos : 0 < (pre.map (fun pc => pc.2.length)).prod := by
    apply List.prod_pos
    intro x hx
    obtain ⟨pc, hpc, rfl⟩ := List.mem_map.mp hx
    exact List.length_pos.mpr (hne pc (hmempre pc hpc))
  have hpostpos : 0 < (post.map (fun pc => pc.2.length)).prod := by
    apply List.prod_pos
    intro x hx
    obtain ⟨pc, hpc, rfl⟩ := List.mem_map.mp hx
    exact List.length_pos.mpr (hne pc (hmempost pc hpc))
  have hdouble : vs2.length = 2 * vs1.length := by
    rw [hlen1, hlen2, prod_map_filled hsplit hpre hpost,
      prod_map_filled hsplit hpre hpost]
    simp only [List.length_cons, List.length_nil]
    ring
  refine ⟨vs1, vs2, hok1, hok2, hdouble, ?_, ?_⟩
  · rw [hdouble]
    have hpos1 : 0 < vs1.length := by
      rw [hlen1, prod_map_filled hsplit hpre hpost]
      simp only [List.length_cons, List.length_nil]
      positivity
    omega
  · intro w hw
    obtain ⟨m2, hm2, hcore2⟩ := variants_ok_inv hok2
    have hment2 := filled_entries hvtp2 hm2
    obtain ⟨w0, hw0, sel, hsel, rfl⟩ := variantsCore_shape hcore2 w hw
    simp only [List.mem_singleton] at hw0
    subst hw0
    rw [variantsCore_count hcore2 hsel.length_eq []]
    rw [hment2] at hsel ⊢
    rw [List.zipWith_map_left]
    rw [List.forall₂_map_right_iff] at hsel
    rw [hsplit] at hsel ⊢
    obtain ⟨s1, a, s2, rfl, hf1, hfa, hf2⟩ := forall₂_append_cons hsel
    rw [List.zipWith_append _ _ _ _ _ hf1.length_eq.symm, List.prod_append,
      List.zipWith_cons_cons, List.prod_cons]
    have hpre1 : (List.zipWith
        (fun pc c => List.count c
          (t.resolveValues (pc.1, if pc.1 = p then [v, v] else []))) pre s1).prod
        = 1 := by
      refine prod_count_one hf1 ?_
      intro pc hpc
      rw [resolve_filled hkeys (by simp) (hmempre pc hpc),
        if_neg (hpre pc hpc)]
      exact hnodup pc (hmempre pc hpc)
    have hpost1 : (List.zipWith
        (fun pc c => List.count c
          (t.resolveValues (pc.1, if pc.1 = p then [v, v] else []))) post s2).prod
        = 1 := by
      refine prod_count_one hf2 ?_
      intro pc hpc
      rw [resolve_filled hkeys (by simp) (hmempost pc hpc),
        if_neg (hpost pc hpc)]
      exact hnodup pc (hmempost pc hpc)
    have hmid0 : (if ((p, cs') : String × List String).1 = p
        then ([v, v] : List String) else []) = [v, v] := if_pos rfl
    rw [hmid0] at hfa ⊢
    have hmid1 : t.resolveValues (((p, cs') : String × List String).1, [v, v]) =
        [v, v] := rfl
    rw [hmid1] at hfa ⊢
    have hav : a = v := by
      rcases List.mem_cons.mp hfa with rfl | hfa'
      · rfl
      · rw [List.mem_singleton] at hfa'
        exact hfa'
    subst hav
    have hcv : List.count a ([a, a] : List String) = 2 := by
      simp [List.count_cons]
    rw [hpre1, hpost1, hcv]
    rfl

/-- Witness for C9: doubling the `ash` token doubles the `test_template`
variant count from 2 to 4, with every variant listed twice. -/
theorem C9_duplicate_tokens_witness :
    ∃ vs1 vs2, testTemplate.variants ["ash"] = .ok vs1 ∧
      testTemplate.variants ["ash", "ash"] = .ok vs2 ∧
      vs2.length = 2 * vs1.length ∧ vs1.length < vs2.length ∧
      ∀ w ∈ vs2, List.count w vs2 = 2 :=
  C9_duplicate_tokens testTemplate "ash" "api" (by decide) (by decide) (by decide)
    (by decide)
